import Mathlib

/-!
Verification development for the SnapReview OpenRV notes plugin
(`NotesOverlay.py`).  The Python source is shallowly embedded: strings are
modelled as `List Char`, the RVPaint property store as per-frame ordered
element lists, and each Python function becomes an executable Lean
definition carrying the source's name.  Host-provided primitives
(clipboard, filesystem, the view-node getter/setter, the global→source
frame mapper) are modelled at their interface.
-/

namespace SnapReview

/-- Strings are modelled as lists of characters (Python `str`). -/
abbrev Str := List Char

/-- Convenience conversion from a Lean string literal to the model type. -/
def str (s : String) : Str := s.data

/-- The ASCII whitespace characters recognised by Python's `str.strip()` /
`str.split()` (the unicode cases are irrelevant to this code base). -/
def isPyWs (c : Char) : Bool :=
  c == ' ' || c == '\t' || c == '\n' || c == '\r' || c == '\x0b' || c == '\x0c'

/-- Python `text.strip()`: drop whitespace from both ends. -/
def pyStrip (l : Str) : Str :=
  ((l.dropWhile isPyWs).reverse.dropWhile isPyWs).reverse

/-- Python `text.strip(". ")`: drop dots and spaces from both ends
(used by `_sanitize_filename`). -/
def isDotSpace (c : Char) : Bool := c == '.' || c == ' '

def stripDotSpace (l : Str) : Str :=
  ((l.dropWhile isDotSpace).reverse.dropWhile isDotSpace).reverse

/-- Python `text.replace(t, r)` for a single-character needle `t`:
every occurrence of the character is replaced (occurrences of a
one-character needle never overlap, so this is exact). -/
def replaceChar (t : Char) (r : Str) (l : Str) : Str :=
  l.flatMap (fun c => if c == t then r else [c])

/-- Python `"sep".join(parts)` for a one-character separator. -/
def joinSep (sep : Char) : List Str → Str
  | [] => []
  | l :: ls => l ++ ls.flatMap (fun x => sep :: x)

/-- Python `text.split(sep)` for a one-character separator (keeps empty
pieces, result is never the empty list — `"".split(c) == [""]`). -/
def splitOnChar (sep : Char) : Str → List Str
  | [] => [[]]
  | c :: rest =>
    if c == sep then [] :: splitOnChar sep rest
    else
      match splitOnChar sep rest with
      | [] => [[c]]
      | l :: ls => (c :: l) :: ls

theorem dropWhile_length_le {α : Type} (p : α → Bool) (l : List α) :
    (l.dropWhile p).length ≤ l.length := by
  induction l with
  | nil => simp
  | cons a l ih =>
    rw [List.dropWhile_cons]
    split
    · exact Nat.le_succ_of_le ih
    · simp

/-- Python `text.split()` with no argument: split on runs of whitespace,
discarding empty pieces. -/
def pySplit : Str → List Str
  | [] => []
  | c :: rest =>
    if isPyWs c then pySplit rest
    else (c :: rest.takeWhile (fun x => !isPyWs x))
      :: pySplit (rest.dropWhile (fun x => !isPyWs x))
termination_by l => l.length
decreasing_by
  · simp only [List.length_cons]; omega
  · have h := dropWhile_length_le (fun x => !isPyWs x) rest
    simp only [List.length_cons]; omega

/-!
## TextLayoutEngine: `wrap_text` (NotesOverlay.py lines 495-566)

`wrap_text(text, max_length)` splits on existing newlines; a line no longer
than `max_length` passes through; otherwise the line is word-wrapped
greedily, a leading lone `"-"` word merged with the next word, and any
word longer than `FORCE_BREAK_LENGTH` hard-chunked into
`FORCE_BREAK_LENGTH`-sized pieces.  In the source the force-break limit is
the class constant `FORCE_BREAK_LENGTH = 37`; here it is a parameter `fb`
so the claimed property can be stated for every value.  The source's
`while len(long_word) > force_break_length` loop does not terminate for
`fb = 0` (a case the source never exercises); the embedding's chunking
recursion is therefore guarded by `0 < fb` and returns the word unchunked
at `fb = 0`.
-/

/-- Source constants: `MAX_CHARS_PER_LINE = int(0.29 / 0.005) = 58`,
`FORCE_BREAK_LENGTH = int(58 * 0.65) = 37`. -/
def MAX_CHARS_PER_LINE : Nat := 58

def FORCE_BREAK_LENGTH : Nat := 37

/-- The `while len(long_word) > force_break_length` chunking loop of the
single-word branch: emit `fb`-sized pieces, then the non-empty remainder. -/
def chunkAll (fb : Nat) (w : Str) : List Str :=
  if h : 0 < fb ∧ fb < w.length then
    w.take fb :: chunkAll fb (w.drop fb)
  else if w = [] then [] else [w]
termination_by w.length
decreasing_by simp only [List.length_drop]; omega

/-- The inline chunking of the multi-word branch: returns the emitted
full `fb`-sized pieces together with the remainder (of length at most
`fb`), which becomes the new `current_line`. -/
def chunkFull (fb : Nat) (w : Str) : List Str × Str :=
  if h : 0 < fb ∧ fb < w.length then
    (w.take fb :: (chunkFull fb (w.drop fb)).1, (chunkFull fb (w.drop fb)).2)
  else ([], w)
termination_by w.length
decreasing_by simp only [List.length_drop]; omega

/-- The greedy word-accumulation loop of `wrap_text` (the `else` branch
for two or more words): `cur` is `current_line`. -/
def wrapWords (maxL fb : Nat) : List Str → Str → List Str
  | [], cur => if cur = [] then [] else [cur]
  | w :: ws, cur =>
    if fb < w.length then
      (if cur = [] then [] else [cur])
        ++ (chunkFull fb w).1 ++ wrapWords maxL fb ws (chunkFull fb w).2
    else if cur.length + w.length + 1 ≤ maxL then
      wrapWords maxL fb ws (if cur = [] then w else cur ++ ' ' :: w)
    else
      (if cur = [] then [] else [cur]) ++ wrapWords maxL fb ws w

/-- The `if len(words) >= 2 and words[0] == "-": words = ["- " + words[1]] + words[2:]`. -/
def mergeDash : List Str → List Str
  | w0 :: w1 :: rest =>
    if w0 = ['-'] then (['-', ' '] ++ w1) :: rest else w0 :: w1 :: rest
  | ws => ws

/-- Wrapping of one input line (the body of the `for line in input_lines`
loop). -/
def wrapLine (maxL fb : Nat) (line : Str) : List Str :=
  if line.length ≤ maxL then [line]
  else
    let words := mergeDash (pySplit line)
    if words.length = 1 then chunkAll fb (words.headD [])
    else wrapWords maxL fb words []

/-- The list `wrapped_lines` produced by `wrap_text` over all input lines. -/
def wrapLines (maxL fb : Nat) (t : Str) : List Str :=
  (splitOnChar '\n' t).flatMap (wrapLine maxL fb)

/-- The `wrap_text(text, max_length)`: `"\n".join(wrapped_lines)`. -/
def wrap_text (maxL fb : Nat) (t : Str) : Str :=
  joinSep '\n' (wrapLines maxL fb t)

/-!
## `unwrap_note` / `normalize_note` (lines 1507-1568)
-/

/-- The fixpoint of the source loop
`while "  " in text: text = text.replace("  ", " ")`: every run of
consecutive spaces collapses to a single space (each pass halves a run's
length, so the loop terminates exactly there); other characters are
untouched. -/
def collapseSpaces (l : Str) : Str :=
  l.foldr
    (fun c acc => if c == ' ' && acc.head? == some ' ' then acc else c :: acc)
    []

/-- The `unwrap_note(text)`: strip one leading `"- "`, replace newlines with
spaces, collapse multiple spaces, strip surrounding whitespace. -/
def unwrap_note (t : Str) : Str :=
  let t1 := if ['-', ' '].isPrefixOf t then t.drop 2 else t
  let t2 := replaceChar '\n' [' '] t1
  let t3 := collapseSpaces t2
  pyStrip t3

/-- The `normalize_note(text)`: unwrap, drop blank notes (`None`), and ensure a
single `"- "` bullet on the result. -/
def normalize_note (t : Str) : Option Str :=
  let u := unwrap_note t
  if u = [] then none
  else if ['-'].isPrefixOf u then
    -- the source's `if not unwrapped.startswith("-")` branch is the final
    -- `else` here (branches flipped, condition un-negated)
    let content := if 1 < u.length then pyStrip (u.drop 1) else []
    if content = [] then none
    else if ['-', ' '].isPrefixOf u then some u
    else some (['-', ' '] ++ content)
  else some (['-', ' '] ++ u)

/-!
## `_sanitize_filename` (lines 818-837)
-/

/-- The `invalid_chars = '<>:"/\\|?*'` (a Python literal: nine characters). -/
def invalidChars : Str := ['<', '>', ':', '\"', '/', '\\', '|', '?', '*']

/-- The `_sanitize_filename(name)`: replace each invalid character with `"_"`
(nine successive one-character `str.replace` calls, i.e. a character map),
strip leading/trailing dots and spaces, and fall back to `"unnamed"`. -/
def sanitize_filename (name : Str) : Str :=
  let replaced := invalidChars.foldl
    (fun acc ch => acc.map (fun c => if c == ch then '_' else c)) name
  let stripped := stripDotSpace replaced
  if stripped ≠ [] then stripped else str "unnamed"

/-!
## `_escape_text_for_mu` (lines 839-841)
-/

/-- The `text.replace("\\", "\\\\").replace('"', '\\"').replace("\n", "\\n")`:
three successive single-character replaces (the Python literals denote the
single characters backslash, double quote and newline, each replaced by a
two-character escape). -/
def escape_text_for_mu (t : Str) : Str :=
  replaceChar '\n' ['\\', 'n']
    (replaceChar '\"' ['\\', '\"']
      (replaceChar '\\' ['\\', '\\'] t))

/-- Interpretation of Mu string-literal escapes, modelled from the claim's
words: `\\` denotes a backslash, `\"` a double quote, `\n` a newline; any
other character stands for itself. -/
def muUnescape : Str → Str
  | [] => []
  | [c] => [c]
  | a :: b :: rest =>
    if a = '\\' ∧ b = '\\' then '\\' :: muUnescape rest
    else if a = '\\' ∧ b = '\"' then '\"' :: muUnescape rest
    else if a = '\\' ∧ b = 'n' then '\n' :: muUnescape rest
    else a :: muUnescape (b :: rest)
termination_by l => l.length
decreasing_by all_goals simp only [List.length_cons]; omega

/-- A double quote is "unescaped" when a left-to-right scan that treats
every backslash as consuming the following character reaches it bare. -/
def noUnescapedQuote : Str → Bool
  | [] => true
  | [c] => !(c == '\"')
  | a :: b :: rest =>
    if a = '\\' then noUnescapedQuote rest
    else if a = '\"' then false
    else noUnescapedQuote (b :: rest)
termination_by l => l.length
decreasing_by all_goals simp only [List.length_cons]; omega

/-!
## `_strip_sequence_pattern` (lines 843-882)

Each regex is anchored at `$` and its match region can contain no `.`
other than the leading literal one, so the (unique) match is found by
parsing the reversed string; `re.sub(p, '', name)` then removes exactly
that suffix.  The source loop applies the patterns in order to `result`
(which still equals `name` until a substitution changes it) and breaks at
the first change, i.e. exactly the first matching pattern is applied.
-/

/-- A matcher returns the name with the matched suffix removed, or `none`.
Matching runs over the reversed name, built from two combinators: eat a
non-empty run of characters satisfying `p`, or eat one given character. -/
def eatRun (p : Char → Bool) (r : Str) : Option Str :=
  if r.takeWhile p = [] then none else some (r.dropWhile p)

def eatChar (c : Char) : Str → Option Str
  | x :: rest => if x = c then some rest else none
  | [] => none

/-- The `\.\d+-\d+@+$` (e.g. `.30-69@@@`). -/
def matchRangeAt (name : Str) : Option Str :=
  (((((eatRun (· == '@') name.reverse).bind
    (eatRun (·.isDigit))).bind (eatChar '-')).bind
      (eatRun (·.isDigit))).bind (eatChar '.')).map List.reverse

/-- The `\.\d+@+$` (e.g. `.1001@@@`). -/
def matchFrameAt (name : Str) : Option Str :=
  ((((eatRun (· == '@') name.reverse).bind
    (eatRun (·.isDigit))).bind (eatChar '.'))).map List.reverse

/-- The `\.@+$` (e.g. `.@@@`). -/
def matchBareAt (name : Str) : Option Str :=
  (((eatRun (· == '@') name.reverse).bind (eatChar '.'))).map List.reverse

/-- The `\.%\d*d$` (e.g. `.%04d` or `.%d`; the digit run may be empty). -/
def matchPercentD (name : Str) : Option Str :=
  ((((eatChar 'd' name.reverse).map
    (fun r => r.dropWhile (·.isDigit))).bind (eatChar '%')).bind
      (eatChar '.')).map List.reverse

/-- The `\.#+$` (e.g. `.####`). -/
def matchHashes (name : Str) : Option Str :=
  (((eatRun (· == '#') name.reverse).bind (eatChar '.'))).map List.reverse

/-- The `\.\d+$` (e.g. `.1001`). -/
def matchTrailingDigits (name : Str) : Option Str :=
  (((eatRun (·.isDigit) name.reverse).bind (eatChar '.'))).map List.reverse

/-- The `revDigits` splits a leading digit run off a reversed name (used by
`_normalize_sequence_path` below). -/
def revDigits (r : Str) : Str × Str :=
  (r.takeWhile (·.isDigit), r.dropWhile (·.isDigit))

/-- The six patterns, in source order. -/
def seqPatterns : List (Str → Option Str) :=
  [matchRangeAt, matchFrameAt, matchBareAt, matchPercentD, matchHashes,
   matchTrailingDigits]

/-- The `for pattern in patterns` loop with its `break` at the first
change: the first matching pattern is applied; no match leaves the name. -/
def stripSeqFirst : List (Str → Option Str) → Str → Str
  | [], name => name
  | m :: ms, name =>
    match m name with
    | some r => r
    | none => stripSeqFirst ms name

/-- The first matching pattern's stripped result, if any. -/
def firstSeqMatch : List (Str → Option Str) → Str → Option Str
  | [], _ => none
  | m :: ms, name =>
    match m name with
    | some r => some r
    | none => firstSeqMatch ms name

/-- The `_strip_sequence_pattern(name)`: apply the first matching pattern,
then `return result if result else name`. -/
def strip_sequence_pattern (name : Str) : Str :=
  let result := stripSeqFirst seqPatterns name
  if result ≠ [] then result else name

/-!
## `_normalize_sequence_path` (lines 884-933)

Rewrites RV sequence notation in a file path to `#` padding.  All four
regexes are `$`-anchored with a final `(\.[^.]+)$` extension group, so the
unique match is again recovered from the reversed path; the `re.sub`
patterns match exactly the same span as the corresponding `re.search`
(shown by the greediness analysis in the comments below), so the rewrite
keeps the prefix and replaces the middle with `.` + hashes.
-/

/-- Decimal value of an ASCII digit run (Python `int` of the captured
group). -/
def digitsVal (ds : Str) : Nat :=
  ds.foldl (fun a c => a * 10 + (c.toNat - '0'.toNat)) 0

/-- The `_normalize_sequence_path(path)`. -/
def normalize_sequence_path (p : Str) : Str :=
  let r := p.reverse
  let e := r.takeWhile (fun c => !(c == '.'))
  -- every pattern requires a non-empty extension `(\.[^.]+)$`
  if e = [] then p else
  match r.drop e.length with
  | '.' :: r2 =>
    let extDot : Str := '.' :: e.reverse
    let ats := r2.takeWhile (· == '@')
    if ats ≠ [] then
      let hashes : Str := List.replicate ats.length '#'
      let r3 := r2.drop ats.length
      match r3 with
      -- `\.(@+)(\.[^.]+)$` with the optional range absent
      -- (covers both the first and the third source regex)
      | '.' :: r4 => (r4.reverse ++ '.' :: hashes ++ extDot)
      | _ =>
        let (d1, r4) := revDigits r3
        if d1 = [] then p else
        match r4 with
        -- `\.(\d+)(@+)(\.[^.]+)$`
        | '.' :: r5 => (r5.reverse ++ '.' :: hashes ++ extDot)
        | '-' :: r5 =>
          let (d2, r6) := revDigits r5
          if d2 = [] then p else
          match r6 with
          -- `\.(\d+-\d+)?(@+)(\.[^.]+)$` with the range present
          | '.' :: r7 => (r7.reverse ++ '.' :: hashes ++ extDot)
          | _ => p
        | _ => p
    else
      match r2 with
      -- `\.%0?(\d*)d(\.[^.]+)$`
      | 'd' :: r3 =>
        let (dg, r4) := revDigits r3
        match r4 with
        | '%' :: '.' :: r5 =>
          let ds := dg.reverse
          let grp := match ds with
            | '0' :: tl => tl
            | _ => ds
          let n := if grp = [] then 4 else digitsVal grp
          (r5.reverse ++ '.' :: List.replicate n '#' ++ extDot)
        | _ => p
      | _ => p
  | _ => p

/-!
## Numbers and paths
-/

/-- Python `str(n)` for a non-negative integer. -/
def natToStr (n : Nat) : Str := Nat.toDigits 10 n

/-- Python `str(i)` for an `int`. -/
def intToStr : Int → Str
  | Int.ofNat n => natToStr n
  | Int.negSucc n => '-' :: natToStr (n + 1)

/-- The `os.path.basename` (POSIX): the part after the last `/`. -/
def basename (p : Str) : Str :=
  (p.reverse.takeWhile (fun c => !(c == '/'))).reverse

/-- The `os.path.dirname` (POSIX): the part before the last `/`, with
trailing slashes stripped unless the result is all slashes. -/
def dirname (p : Str) : Str :=
  if '/' ∈ p then
    let head := (p.reverse.dropWhile (fun c => !(c == '/'))).reverse
    if head.all (· == '/') then head
    else (head.reverse.dropWhile (· == '/')).reverse
  else []

/-!
## AnnotationStore model

An element of an RVPaint node is addressed by its composite name
`"{kind}:{id}:{frame}:{label}"` and may carry a `.text` property.  A paint
node stores, per frame, the `frame:{n}.order` list of element names; the
`text` field below is `some s` exactly when the element's `.text`
property exists.  A store is the per-frame association list of its order
lists (each frame's order property occurring once, as in RV).
-/

structure PaintElement where
  name : Str
  text : Option Str
deriving DecidableEq, Repr

abbrev PaintStore := List (Int × List PaintElement)

/-- The `{f":shadow{i}" for i in range(8)}`. -/
def shadowLabels : List Str := (List.range 8).map (fun i => str ":shadow" ++ natToStr i)

/-- The `any(element.endswith(s) for s in shadow_labels)`. -/
def isShadow (e : PaintElement) : Bool :=
  shadowLabels.any (fun s => s.isSuffixOf e.name)

/-- The `element.split(":")[0] if ":" in element else ""`. -/
def elementType (name : Str) : Str :=
  if ':' ∈ name then (splitOnChar ':' name).headD [] else []

/-- The `drawing_types = {"stroke", "line", "rect", "circle", "pen", "arrow"}`. -/
def drawingTypes : List Str :=
  [str "stroke", str "line", str "rect", str "circle", str "pen", str "arrow"]

def isDrawingKind (e : PaintElement) : Bool :=
  drawingTypes.contains (elementType e.name)

/-- Python truthiness of `note_text and note_text.strip()`. -/
def nonBlank (t : Str) : Bool := !t.isEmpty && !(pyStrip t).isEmpty

/-- Whether an element carries non-blank text. -/
def hasNonBlankText (e : PaintElement) : Bool :=
  match e.text with
  | some t => nonBlank t
  | none => false

/-- The `frame:{frame}.order` element list of a store (empty when the
property does not exist). -/
def lookupFrame (store : PaintStore) (f : Int) : List PaintElement :=
  match store.find? (fun p => p.1 == f) with
  | some p => p.2
  | none => []

/-- Insert into a strictly increasing list (no duplicates). -/
def insertAsc (n : Int) : List Int → List Int
  | [] => [n]
  | m :: ms =>
    if n < m then n :: m :: ms
    else if n = m then m :: ms
    else m :: insertAsc n ms

/-- Python `sorted(set(l))`. -/
def sortedSet (l : List Int) : List Int := l.foldr insertAsc []

/-- The `get_annotated_frames(paint_node)` (lines 1312-1360): the sorted set
of frames whose order list holds at least one non-shadow element. -/
def get_annotated_frames (store : PaintStore) : List Int :=
  sortedSet ((store.filter (fun p => p.2.any (fun e => !isShadow e))).map Prod.fst)

/-- The element loop of `get_notes_for_frame` (lines 1445-1505): `seen`
is the dedup set, in the order texts were first encountered. -/
def notesScan : List PaintElement → List Str → List Str × Bool
  | [], _ => ([], false)
  | e :: rest, seen =>
    if isShadow e then notesScan rest seen
    else
      match e.text with
      | some t =>
        if nonBlank t then
          if t ∈ seen then notesScan rest seen
          else (t :: (notesScan rest (t :: seen)).1, (notesScan rest (t :: seen)).2)
        else notesScan rest seen
      | none =>
        if isDrawingKind e then ((notesScan rest seen).1, true)
        else notesScan rest seen

/-- The `get_notes_for_frame(paint_node, frame)`: returns the frame's
deduplicated non-blank texts (encounter order) and whether it holds a
drawing element. -/
def get_notes_for_frame (store : PaintStore) (f : Int) : List Str × Bool :=
  notesScan (lookupFrame store f) []

/-- The texts of a frame's non-shadow, non-blank text elements, in store
order, duplicates included (specification vocabulary for the dedup
theorem, not a source function). -/
def validTexts (elems : List PaintElement) : List Str :=
  elems.filterMap (fun e =>
    if isShadow e then none
    else match e.text with
      | some t => if nonBlank t then some t else none
      | none => none)

/-!
## `_clean_empty_paint_elements` (lines 1362-1443)
-/

/-- The element scan: returns `(has_valid_content, empty_text_elements)`. -/
def cleanScan : List PaintElement → Bool × List PaintElement
  | [] => (false, [])
  | e :: rest =>
    if isShadow e then cleanScan rest
    else
      match e.text with
      | some t =>
        if nonBlank t then (true, (cleanScan rest).2)
        else ((cleanScan rest).1, e :: (cleanScan rest).2)
      | none =>
        if isDrawingKind e then (true, (cleanScan rest).2) else cleanScan rest

/-- The `_clean_empty_paint_elements(paint_node, frame)` decision: `True`
(elements deleted) iff the scan finds no valid content and at least one
empty text element.  An absent or empty order list returns `False`. -/
def clean_empty_paint_elements (elems : List PaintElement) : Bool :=
  if elems = [] then false
  else
    let p := cleanScan elems
    if p.1 || p.2 = [] then false else true

/-- Effect on the frame's element list: the triggered
`clear-annotations-current-frame` event removes every element of the
frame; otherwise the store is untouched. -/
def cleanFrameApply (elems : List PaintElement) : List PaintElement :=
  if clean_empty_paint_elements elems then [] else elems

/-!
## ExportPipeline: `_gather_notes_for_export` (lines 935-1044) and
`format_notes_for_export` (lines 1570-1695)

A `Session` holds what the pipeline reads from the host: the source
group's own RVPaint store (clip-relative frames), the sequence paint node
(absent in `nodesOfType` discovery when RV's native annotation tool was
never used) keyed by global frames, the `extra_commands.sourceFrame`
global→source mapping (its `except` fallback `src_frame = global_frame`
folded in, making it total), and the `sourceMediaInfo` file path plus the
node name used when the path is empty.  The `rvui` mark refresh performed
by the source mutates only timeline marks, which the pipeline never reads
back, so it does not appear in the model.  The generation time read by
`datetime.now().strftime("%Y_%m_%d %H:%M")` is an input `now`.
-/

structure Session where
  sourceNode : Str
  sourcePath : Str
  sourcePaint : PaintStore
  seqPaint : Option PaintStore
  mapToSource : Int → Int

/-- The `frame_notes` is a Python dict keyed by frame; insertion keeps first
position, `extend` appends to the existing list. -/
def fnInsert (fn : List (Int × List Str)) (f : Int) (ts : List Str) :
    List (Int × List Str) :=
  if fn.any (fun p => p.1 == f) then
    fn.map (fun p => if p.1 == f then (p.1, p.2 ++ ts) else p)
  else fn ++ [(f, ts)]

/-- The `drawing_only_frames` is a Python set: membership only. -/
def setInsert (s : List Int) (f : Int) : List Int :=
  if f ∈ s then s else s ++ [f]

/-- The two frame loops of `_gather_notes_for_export` building
`frame_notes` and `drawing_only_frames`. -/
def gatherFrameNotes (s : Session) : List (Int × List Str) × List Int :=
  let annotated := get_annotated_frames s.sourcePaint
  let native := match s.seqPaint with
    | some sq => get_annotated_frames sq
    | none => []
  let step1 := annotated.foldl
    (fun acc f =>
      let p := get_notes_for_frame s.sourcePaint f
      if p.1 ≠ [] then (fnInsert acc.1 f p.1, acc.2)
      else if p.2 then (acc.1, setInsert acc.2 f)
      else acc)
    ([], [])
  match s.seqPaint with
  | none => step1
  | some sq =>
    native.foldl
      (fun acc g =>
        let srcF := s.mapToSource g
        let p := get_notes_for_frame sq g
        if p.1 ≠ [] then (fnInsert acc.1 srcF p.1, acc.2)
        else if p.2 then (acc.1, setInsert acc.2 srcF)
        else acc)
      step1

/-- One `"Frame {n}"` block of the report body. -/
def frameBlock (frameNotes : List (Int × List Str)) (f : Int) : List Str :=
  (str "Frame " ++ intToStr f) ::
    (match frameNotes.find? (fun p => p.1 == f) with
     | some p =>
       let valid := p.2.filterMap normalize_note
       if valid = [] then [str "- *see annotated frame"] else valid
     | none => [str "- *see annotated frame"])

/-- Blocks joined by one blank line (`lines.append("")` between groups,
not after the last). -/
def joinBlocks : List (List Str) → List Str
  | [] => []
  | b :: bs => b ++ bs.flatMap (fun x => [] :: x)

/-- The `lines` list built by `format_notes_for_export(source_name,
source_path, frame_notes, drawing_only_frames, frames_folder,
session_path)`, with the generation timestamp `now` passed in place of
`datetime.now().strftime("%Y_%m_%d %H:%M")` (which occupies line
index 1). -/
def formatLines (sourceName sourcePath now : Str)
    (frameNotes : List (Int × List Str)) (drawingOnly : List Int)
    (framesFolder sessionPath : Option Str) : List Str :=
  let allFrames := sortedSet (frameNotes.map Prod.fst ++ drawingOnly)
  let body := joinBlocks (allFrames.map (frameBlock frameNotes))
  let annBlock := match framesFolder with
    | some ff => [str "annotations:", ff, []]
    | none => []
  let sessBlock := match sessionPath with
    | some sp => [str "session:", sp, []]
    | none => []
  let midSep := if framesFolder.isSome || sessionPath.isSome
    then [str "---", []] else []
  let srcFile := [str "source file:",
    if sourcePath ≠ [] then normalize_sequence_path sourcePath else sourceName]
  let srcFolder := if sourcePath ≠ []
    then [[], str "source folder:", dirname sourcePath] else []
  (str "Notes on " ++ normalize_sequence_path sourceName) :: now :: [] ::
    str "---" :: [] ::
    (body ++ ([] :: str "---" :: [] :: (annBlock ++ sessBlock ++ midSep
      ++ srcFile ++ srcFolder)))

/-- The `format_notes_for_export`: `"\n".join(lines)`. -/
def format_notes_for_export (sourceName sourcePath now : Str)
    (frameNotes : List (Int × List Str)) (drawingOnly : List Int)
    (framesFolder sessionPath : Option Str) : Str :=
  joinSep '\n'
    (formatLines sourceName sourcePath now frameNotes drawingOnly
      framesFolder sessionPath)

/-- The `_gather_notes_for_export(source, frames_folder, session_path)`:
returns `(formatted_text, total_notes, total_frames)` with `none` as the
explicit empty-result signal. -/
def gather_notes_for_export (s : Session) (now : Str)
    (framesFolder sessionPath : Option Str) : Option Str × Nat × Nat :=
  let annotated := get_annotated_frames s.sourcePaint
  let native := match s.seqPaint with
    | some sq => get_annotated_frames sq
    | none => []
  if sortedSet (annotated ++ native) = [] then (none, 0, 0)
  else
    let fn := gatherFrameNotes s
    if fn.1 = [] ∧ fn.2 = [] then (none, 0, 0)
    else
      let sourceName := if s.sourcePath ≠ [] then basename s.sourcePath
        else s.sourceNode
      let out := format_notes_for_export sourceName s.sourcePath now
        fn.1 fn.2 framesFolder sessionPath
      (some out, fn.1.foldl (fun a p => a + p.2.length) 0,
        fn.1.length + fn.2.length)

/-!
## ReviewOrchestrator: view narrowing and restoration (C7)

`save_review` step 2 (lines 699-734) and `_export_annotated_frames`
(lines 1067-1164) temporarily narrow the active view to the source group
and restore it in a `finally` block.  The model tracks only the host's
current view node and which host calls succeed: `viewNodeOk` is
`commands.viewNode()`, `narrowOk` is `commands.setViewNode(source_group)`,
`restoreOk` the restoring `commands.setViewNode(original_view)`.  The
bodies between narrow and restore never touch the view node (their own
failures are caught before reaching `finally`), so they do not appear.
The `if original_view:` guard is Python truthiness: `None` and the empty
string both skip the restore.
-/

structure ViewState where
  view : Str
deriving DecidableEq, Repr

structure HostOracle where
  viewNodeOk : Bool
  narrowOk : Bool
  restoreOk : Bool

/-- The `save_review` step 2: `original_view = None`, then inside one
`try`: `original_view = commands.viewNode()` (an exception here skips the
narrowing entirely), `commands.setViewNode(source_group)`, the annotation
check; `finally: if original_view: try restore except pass`. -/
def save_review_check_view (o : HostOracle) (sourceGroup : Str)
    (st : ViewState) : ViewState :=
  if !o.viewNodeOk then st
  else
    let narrowed := if o.narrowOk then ViewState.mk sourceGroup else st
    if !st.view.isEmpty && o.restoreOk then ViewState.mk st.view else narrowed

/-- The `_export_annotated_frames`: `original_view = commands.viewNode()` in
its own `try/except` (`None` on failure), then `try:` narrow (early
`return 0` on failure — still through `finally`), export body,
`finally: if original_view: try restore except pass`. -/
def export_annotated_frames_view (o : HostOracle) (sourceGroup : Str)
    (st : ViewState) : ViewState :=
  let original : Option Str := if o.viewNodeOk then some st.view else none
  let narrowed := if o.narrowOk then ViewState.mk sourceGroup else st
  match original with
  | some v => if !v.isEmpty && o.restoreOk then ViewState.mk v else narrowed
  | none => narrowed

/-!
# Theorems

Shared lemmas first, then one theorem per claim C1-C10 (with its witness
or counterexample), each preceded by a doc comment naming the claim.
-/

theorem splitOnChar_ne_nil (sep : Char) (t : Str) : splitOnChar sep t ≠ [] := by
  cases t with
  | nil => simp [splitOnChar]
  | cons c rest =>
    rw [splitOnChar]
    split
    · simp
    · cases h : splitOnChar sep rest <;> simp

theorem joinSep_splitOnChar (sep : Char) (t : Str) :
    joinSep sep (splitOnChar sep t) = t := by
  induction t with
  | nil => rfl
  | cons c rest ih =>
    rw [splitOnChar]
    by_cases hc : c == sep
    · rw [if_pos hc]
      have hceq : c = sep := by simpa using hc
      cases hL : splitOnChar sep rest with
      | nil => exact absurd hL (splitOnChar_ne_nil sep rest)
      | cons l ls =>
        rw [hL] at ih
        simp only [joinSep, List.flatMap_cons, List.nil_append,
          List.cons_append] at ih ⊢
        rw [ih, hceq]
    · rw [if_neg hc]
      cases hL : splitOnChar sep rest with
      | nil => exact absurd hL (splitOnChar_ne_nil sep rest)
      | cons l ls =>
        rw [hL] at ih
        simp only [joinSep, List.cons_append] at ih ⊢
        rw [ih]

theorem wrapLine_short (maxL fb : Nat) (l : Str) (h : l.length ≤ maxL) :
    wrapLine maxL fb l = [l] := by
  unfold wrapLine
  rw [if_pos h]

theorem flatMap_wrapLine_short (maxL fb : Nat) :
    ∀ L : List Str, (∀ l ∈ L, l.length ≤ maxL) →
      L.flatMap (wrapLine maxL fb) = L := by
  intro L
  induction L with
  | nil => intro _; rfl
  | cons l ls ih =>
    intro h
    rw [List.flatMap_cons, wrapLine_short maxL fb l (h l (by simp)),
      ih (fun x hx => h x (by simp [hx]))]
    rfl

/-- C6 (confirmed): for every string in which no line (segment between
existing newlines) is longer than `max_len`, `wrap_text` returns the
string unchanged: every short line passes through the wrapper and
`"\n".join` undoes the initial `split("\n")`. -/
theorem wrap_text_short_identity (maxL fb : Nat) (t : Str)
    (h : ∀ l ∈ splitOnChar '\n' t, l.length ≤ maxL) :
    wrap_text maxL fb t = t := by
  unfold wrap_text wrapLines
  rw [flatMap_wrapLine_short maxL fb (splitOnChar '\n' t) h,
    joinSep_splitOnChar]

/-- Witness for C6 at a concrete two-line string. -/
theorem wrap_text_short_identity_witness :
    (∀ l ∈ splitOnChar '\n' (str "short line\nand another"),
      l.length ≤ 58) ∧
    wrap_text 58 37 (str "short line\nand another") =
      str "short line\nand another" :=
  ⟨by decide, wrap_text_short_identity 58 37 _ (by decide)⟩

theorem chunkAll_bound (fb : Nat) (hfb : 0 < fb) (w : Str) :
    ∀ l ∈ chunkAll fb w, l.length ≤ fb := by
  induction w using chunkAll.induct fb with
  | case1 w h ih =>
    intro l hl
    rw [chunkAll, dif_pos h] at hl
    rcases List.mem_cons.mp hl with h1 | h2
    · subst h1; simp [List.length_take]
    · exact ih l h2
  | case2 h =>
    intro l hl
    rw [chunkAll, dif_neg h, if_pos rfl] at hl
    simp at hl
  | case3 w h hw =>
    intro l hl
    rw [chunkAll, dif_neg h, if_neg hw] at hl
    simp only [List.mem_singleton] at hl
    subst hl
    have := fun hb => h ⟨hfb, hb⟩
    omega

theorem chunkFull_bound (fb : Nat) (hfb : 0 < fb) (w : Str) :
    (∀ l ∈ (chunkFull fb w).1, l.length ≤ fb) ∧
      (chunkFull fb w).2.length ≤ fb := by
  induction w using chunkFull.induct fb with
  | case1 w h ih =>
    rw [chunkFull, dif_pos h]
    refine ⟨fun l hl => ?_, ih.2⟩
    rcases List.mem_cons.mp hl with h1 | h2
    · subst h1; simp [List.length_take]
    · exact ih.1 l h2
  | case2 w h =>
    rw [chunkFull, dif_neg h]
    refine ⟨fun l hl => by simp at hl, ?_⟩
    have := fun hb => h ⟨hfb, hb⟩
    simpa using by omega

theorem wrapWords_bound (maxL fb : Nat) (hfb : 0 < fb) :
    ∀ (ws : List Str) (cur : Str), cur.length ≤ max maxL fb →
      ∀ l ∈ wrapWords maxL fb ws cur, l.length ≤ max maxL fb := by
  intro ws
  induction ws with
  | nil =>
    intro cur hcur l hl
    rw [wrapWords] at hl
    split at hl
    · simp at hl
    · simp only [List.mem_singleton] at hl
      subst hl
      exact hcur
  | cons w ws ih =>
    intro cur hcur l hl
    rw [wrapWords] at hl
    split at hl
    · rcases List.mem_append.mp hl with h1 | h2
      · rcases List.mem_append.mp h1 with h3 | h4
        · split at h3
          · simp at h3
          · simp only [List.mem_singleton] at h3; subst h3; exact hcur
        · exact Nat.le_trans ((chunkFull_bound fb hfb w).1 l h4)
            (Nat.le_max_right maxL fb)
      · exact ih (chunkFull fb w).2
          (Nat.le_trans (chunkFull_bound fb hfb w).2 (Nat.le_max_right maxL fb))
          l h2
    · rename_i hlong
      split at hl
      · rename_i hfit
        refine ih _ ?_ l hl
        split
        · exact Nat.le_trans (by omega) (Nat.le_max_left maxL fb)
        · simp only [List.length_append, List.length_cons]
          exact Nat.le_trans (by omega) (Nat.le_max_left maxL fb)
      · rcases List.mem_append.mp hl with h1 | h2
        · split at h1
          · simp at h1
          · simp only [List.mem_singleton] at h1; subst h1; exact hcur
        · refine ih w ?_ l h2
          exact Nat.le_trans (by omega) (Nat.le_max_right maxL fb)

theorem wrapLine_bound (maxL fb : Nat) (hfb : 0 < fb) (line : Str) :
    ∀ l ∈ wrapLine maxL fb line, l.length ≤ max maxL fb := by
  intro l hl
  unfold wrapLine at hl
  split at hl
  · simp only [List.mem_singleton] at hl
    subst hl
    exact Nat.le_trans (by assumption) (Nat.le_max_left maxL fb)
  · dsimp only at hl
    split at hl
    · exact Nat.le_trans
        (chunkAll_bound fb hfb _ l hl) (Nat.le_max_right maxL fb)
    · exact wrapWords_bound maxL fb hfb _ [] (by simp) l hl

/-- C5 (confirmed): no line of `wrap_text`'s output exceeds
`max(max_len, force_break_len)` characters, for every input string,
every `max_len` and every positive `force_break_len` (the source's
`while len(long_word) > force_break_length` loop does not terminate at
`force_break_len = 0`, and the source only ever uses the constant 37).
`wrapLines` is the `wrapped_lines` list the source joins with `"\n"` into
`wrap_text`'s result. -/
theorem wrap_text_force_break_bound (t : Str) (maxL fb : Nat)
    (hfb : 0 < fb) :
    ∀ l ∈ wrapLines maxL fb t, l.length ≤ max maxL fb := by
  intro l hl
  unfold wrapLines at hl
  rcases List.mem_flatMap.mp hl with ⟨line, _, hmem⟩
  exact wrapLine_bound maxL fb hfb line l hmem

/-- Witness for C5 at the spec's scenario D input (58/37): the merged
single token exceeds both thresholds and is hard-chunked. -/
theorem wrap_text_force_break_bound_witness :
    0 < 37 ∧
    ∀ l ∈ wrapLines 58 37
      (str "- supercalifragilisticexpialidocioussupercalifragilisticexpialidocious"),
      l.length ≤ max 58 37 :=
  ⟨by decide, wrap_text_force_break_bound _ 58 37 (by decide)⟩

/-!
### Lemmas on stripping and space collapsing (for C3 and C8)
-/

/-- Stripping from the right is taking a prefix. -/
theorem stripRight_isPre (p : Char → Bool) (x : Str) :
    (x.reverse.dropWhile p).reverse <+: x := by
  have h : x.reverse.dropWhile p <:+ x.reverse := List.dropWhile_suffix p
  have h2 := List.reverse_prefix.mpr h
  simpa using h2

/-- A both-ends strip is an infix of the input. -/
theorem stripBoth_mid (p : Char → Bool) (l : Str) :
    ((l.dropWhile p).reverse.dropWhile p).reverse <:+: l :=
  (stripRight_isPre p (l.dropWhile p)).isInfix.trans
    (List.dropWhile_suffix p).isInfix

theorem pyStrip_mid (l : Str) : pyStrip l <:+: l := stripBoth_mid isPyWs l

theorem stripDotSpace_mid (l : Str) : stripDotSpace l <:+: l :=
  stripBoth_mid isDotSpace l

theorem dropWhile_head_not (p : Char → Bool) (l : Str) :
    ∀ h, (l.dropWhile p).head? = some h → p h = false := by
  induction l with
  | nil => intro h hh; simp [List.dropWhile] at hh
  | cons a t ih =>
    intro h hh
    rw [List.dropWhile_cons] at hh
    split at hh
    · exact ih h hh
    · rename_i hpa
      simp only [List.head?_cons, Option.some.injEq] at hh
      subst hh
      simpa using hpa

theorem isPre_head? {l₁ l₂ : Str} (h : l₁ <+: l₂) (hne : l₁ ≠ []) :
    l₁.head? = l₂.head? := by
  rcases h with ⟨t, rfl⟩
  cases l₁ with
  | nil => exact absurd rfl hne
  | cons a l => rfl

/-- The first character of a both-ends strip fails the predicate. -/
theorem stripBoth_head (p : Char → Bool) (l : Str) (c : Char)
    (h : (((l.dropWhile p).reverse.dropWhile p).reverse).head? = some c) :
    p c = false := by
  have hne : ((l.dropWhile p).reverse.dropWhile p).reverse ≠ [] := by
    intro hnil; rw [hnil] at h; simp at h
  have heq := isPre_head? (stripRight_isPre p (l.dropWhile p)) hne
  rw [heq] at h
  exact dropWhile_head_not p l c h

/-- The last character of a both-ends strip fails the predicate. -/
theorem stripBoth_getLast (p : Char → Bool) (l : Str) (c : Char)
    (h : (((l.dropWhile p).reverse.dropWhile p).reverse).getLast? = some c) :
    p c = false := by
  rw [List.getLast?_reverse] at h
  exact dropWhile_head_not p (l.dropWhile p).reverse c h

theorem collapseSpaces_head? (l : Str) :
    (collapseSpaces l).head? = l.head? := by
  induction l with
  | nil => rfl
  | cons c rest ih =>
    show (if c == ' ' && (collapseSpaces rest).head? == some ' '
      then collapseSpaces rest else c :: collapseSpaces rest).head? = _
    split
    · rename_i hcond
      simp only [Bool.and_eq_true, beq_iff_eq] at hcond
      rw [hcond.2, hcond.1]
      rfl
    · rfl

theorem collapseSpaces_subset (l : Str) : ∀ c ∈ collapseSpaces l, c ∈ l := by
  induction l with
  | nil => intro c hc; simp [collapseSpaces] at hc
  | cons a rest ih =>
    intro c hc
    replace hc : c ∈ (if a == ' ' && (collapseSpaces rest).head? == some ' '
      then collapseSpaces rest else a :: collapseSpaces rest) := hc
    split at hc
    · exact List.mem_cons_of_mem a (ih c hc)
    · rcases List.mem_cons.mp hc with h1 | h2
      · exact h1 ▸ List.mem_cons_self a rest
      · exact List.mem_cons_of_mem a (ih c h2)

theorem collapseSpaces_noDS (l : Str) :
    ¬ ([' ', ' '] <:+: collapseSpaces l) := by
  induction l with
  | nil => intro h; simp [collapseSpaces] at h
  | cons a rest ih =>
    intro h
    replace h : [' ', ' '] <:+: (if a == ' ' &&
        (collapseSpaces rest).head? == some ' '
      then collapseSpaces rest else a :: collapseSpaces rest) := h
    split at h
    · exact ih h
    · rename_i hcond
      rcases List.infix_cons_iff.mp h with hpre | hinf
      · rcases List.cons_prefix_cons.mp hpre with ⟨ha, hpre2⟩
        have hh : (collapseSpaces rest).head? = some ' ' := by
          cases hcs : collapseSpaces rest with
          | nil =>
            rw [hcs] at hpre2
            rcases hpre2 with ⟨t, ht⟩
            simp at ht
          | cons x xs =>
            rw [hcs] at hpre2
            rcases List.cons_prefix_cons.mp hpre2 with ⟨hx, _⟩
            simp [List.head?_cons, ← hx]
        rw [← ha] at hcond
        simp [hh] at hcond
      · exact ih hinf

theorem replaceChar_nl_no_nl (l : Str) :
    '\n' ∉ replaceChar '\n' [' '] l := by
  intro h
  rcases List.mem_flatMap.mp h with ⟨c, _, hc⟩
  split at hc
  · simp at hc
  · rename_i hne
    simp only [List.mem_singleton] at hc
    subst hc
    simp at hne

theorem unwrap_note_no_nl (t : Str) : '\n' ∉ unwrap_note t := by
  intro h
  have h1 : '\n' ∈ collapseSpaces (replaceChar '\n' [' ']
      (if ['-', ' '].isPrefixOf t then t.drop 2 else t)) :=
    ((pyStrip_mid _).sublist).mem h
  exact replaceChar_nl_no_nl _ (collapseSpaces_subset _ _ h1)

theorem unwrap_note_noDS (t : Str) : ¬ ([' ', ' '] <:+: unwrap_note t) := by
  intro h
  exact collapseSpaces_noDS _ (h.trans (pyStrip_mid _))

theorem unwrap_note_head (t : Str) (c : Char)
    (h : (unwrap_note t).head? = some c) : isPyWs c = false :=
  stripBoth_head isPyWs _ c h

/-- The `if len(unwrapped) > 1` guard of `normalize_note` is redundant. -/
theorem content_guard_eq (u : Str) :
    (if 1 < u.length then pyStrip (u.drop 1) else []) = pyStrip (u.drop 1) := by
  split
  · rfl
  · have h1 : u.drop 1 = [] := List.drop_eq_nil_of_le (by omega)
    rw [h1]
    rfl

theorem pyStrip_facts (x : Str) :
    (∀ c, (pyStrip x).head? = some c → isPyWs c = false) ∧
    ('\n' ∈ x → False → True) := ⟨fun c h => stripBoth_head isPyWs x c h, fun _ _ => trivial⟩

/-- Membership and infix facts inherited by `pyStrip (u.drop 1)` from `u`. -/
theorem pyStrip_drop_inherits (u : Str) :
    ('\n' ∉ u → '\n' ∉ pyStrip (u.drop 1)) ∧
    (¬ ([' ', ' '] <:+: u) → ¬ ([' ', ' '] <:+: pyStrip (u.drop 1))) := by
  constructor
  · intro hnl h
    exact hnl (((pyStrip_mid _).trans
      (List.drop_suffix 1 u).isInfix).sublist.mem h)
  · intro hds h
    exact hds ((h.trans (pyStrip_mid _)).trans (List.drop_suffix 1 u).isInfix)

/-- No two adjacent spaces in `'-' :: ' ' :: u` given `u` starts with a
non-space and itself has none. -/
theorem noDS_bullet (u : Str) (hu : ∀ c, u.head? = some c → isPyWs c = false)
    (hds : ¬ ([' ', ' '] <:+: u)) :
    ¬ ([' ', ' '] <:+: '-' :: ' ' :: u) := by
  intro h
  rcases List.infix_cons_iff.mp h with hpre | hinf
  · rcases List.cons_prefix_cons.mp hpre with ⟨ha, _⟩
    simp at ha
  · rcases List.infix_cons_iff.mp hinf with hpre | hinf2
    · rcases List.cons_prefix_cons.mp hpre with ⟨_, hpre2⟩
      cases hu0 : u with
      | nil =>
        rw [hu0] at hpre2
        rcases hpre2 with ⟨t, ht⟩
        simp at ht
      | cons x xs =>
        rw [hu0] at hpre2
        rcases List.cons_prefix_cons.mp hpre2 with ⟨hx, _⟩
        have := hu x (by rw [hu0]; rfl)
        rw [← hx] at this
        simp [isPyWs] at this
    · exact hds hinf2

/-- C3 (corrected): `normalize_note` strips one leading `"- "`, undoes
wrapping (newlines become spaces, runs of *spaces* collapse — tab runs
are preserved, contrary to the claim), trims the ends, and returns `none`
exactly when nothing remains **or** only a dash with no following content
remains (the bare-dash case contradicts the claim's "exactly when nothing
remains"); otherwise the result carries a single leading `"- "` and
contains no newline and no two adjacent spaces. -/
theorem normalize_note_spec (t : Str) :
    (normalize_note t = none ↔
      unwrap_note t = [] ∨
        (['-'] <+: unwrap_note t ∧ pyStrip ((unwrap_note t).drop 1) = [])) ∧
    (∀ s, normalize_note t = some s →
      ['-', ' '] <+: s ∧ '\n' ∉ s ∧ ¬ ([' ', ' '] <:+: s)) := by
  unfold normalize_note
  dsimp only
  rw [content_guard_eq]
  by_cases h1 : unwrap_note t = []
  · rw [if_pos h1]
    exact ⟨iff_of_true rfl (Or.inl h1), fun s hs => by simp at hs⟩
  · rw [if_neg h1]
    by_cases h2 : ['-'].isPrefixOf (unwrap_note t)
    · rw [if_pos h2]
      by_cases h3 : pyStrip ((unwrap_note t).drop 1) = []
      · rw [if_pos h3]
        exact ⟨iff_of_true rfl
          (Or.inr ⟨List.isPrefixOf_iff_prefix.mp h2, h3⟩),
          fun s hs => by simp at hs⟩
      · rw [if_neg h3]
        by_cases h4 : ['-', ' '].isPrefixOf (unwrap_note t)
        · rw [if_pos h4]
          refine ⟨iff_of_false (by simp) ?_, ?_⟩
          · push_neg
            exact ⟨h1, fun _ => h3⟩
          · intro s hs
            injection hs with hs
            subst hs
            exact ⟨List.isPrefixOf_iff_prefix.mp h4, unwrap_note_no_nl t,
              unwrap_note_noDS t⟩
        · rw [if_neg h4]
          refine ⟨iff_of_false (by simp) ?_, ?_⟩
          · push_neg
            exact ⟨h1, fun _ => h3⟩
          · intro s hs
            injection hs with hs
            subst hs
            refine ⟨⟨pyStrip ((unwrap_note t).drop 1), rfl⟩, ?_, ?_⟩
            · intro hmem
              rcases List.mem_cons.mp hmem with hx | hx
              · simp at hx
              · rcases List.mem_cons.mp hx with hy | hy
                · simp at hy
                · exact (pyStrip_drop_inherits (unwrap_note t)).1
                    (unwrap_note_no_nl t) hy
            · exact noDS_bullet _
                (fun c hc => stripBoth_head isPyWs _ c hc)
                ((pyStrip_drop_inherits (unwrap_note t)).2
                  (unwrap_note_noDS t))
    · rw [if_neg h2]
      refine ⟨iff_of_false (by simp) ?_, ?_⟩
      · push_neg
        exact ⟨h1, fun hpre =>
          absurd (List.isPrefixOf_iff_prefix.mpr hpre) h2⟩
      · intro s hs
        injection hs with hs
        subst hs
        refine ⟨⟨unwrap_note t, rfl⟩, ?_, ?_⟩
        · intro hmem
          rcases List.mem_cons.mp hmem with hx | hx
          · simp at hx
          · rcases List.mem_cons.mp hx with hy | hy
            · simp at hy
            · exact unwrap_note_no_nl t hy
        · exact noDS_bullet _ (unwrap_note_head t) (unwrap_note_noDS t)

/-- Counterexample for C3 as stated: on input `"-"` the claimed
normalization (strip a leading `"- "` — absent here — and collapse
whitespace) leaves the non-empty string `"-"`, yet the code drops the
note; and on `"a\t\tb"` the internal tab whitespace run is not collapsed
to a single space. -/
theorem normalize_note_claim_cex :
    normalize_note (str "-") = none ∧ unwrap_note (str "-") = str "-" ∧
    normalize_note (str "a\t\tb") = some (str "- a\t\tb") := by decide

/-- Witness for C3: instantiation at a wrapped two-line note. -/
theorem normalize_note_spec_witness :
    ['-', ' '] <+: str "- hello world" ∧ '\n' ∉ str "- hello world" ∧
      ¬ ([' ', ' '] <:+: str "- hello world") :=
  (normalize_note_spec (str "- hello\nworld")).2 (str "- hello world")
    (by decide)

/-!
### `_sanitize_filename` lemmas (C8)
-/

/-- The nine successive character replaces amount to one character map. -/
theorem foldl_map_sub (cs : Str) : ∀ name : Str,
    cs.foldl (fun acc ch => acc.map (fun c => if c == ch then '_' else c)) name
      = name.map
          (fun c => cs.foldl (fun x ch => if x == ch then '_' else x) c) := by
  induction cs with
  | nil => intro name; simp
  | cons ch cs ih =>
    intro name
    rw [List.foldl_cons, ih, List.map_map]
    simp [Function.comp]

theorem chainSub_eq (cs : Str) (hno : '_' ∉ cs) : ∀ c : Char,
    cs.foldl (fun x ch => if x == ch then '_' else x) c
      = if c ∈ cs then '_' else c := by
  induction cs with
  | nil => intro c; simp
  | cons ch cs ih =>
    intro c
    have hno' : '_' ∉ cs := fun h => hno (List.mem_cons_of_mem ch h)
    rw [List.foldl_cons]
    by_cases hc : c == ch
    · have hceq : c = ch := by simpa using hc
      rw [if_pos hc, ih hno']
      have h1 : (if ('_' : Char) ∈ cs then '_' else '_') = '_' := by
        split <;> rfl
      rw [h1, if_pos (show c ∈ ch :: cs by simp [hceq])]
    · rw [if_neg hc, ih hno']
      have hne : c ≠ ch := by simpa using hc
      by_cases hmem : c ∈ cs
      · rw [if_pos hmem, if_pos (List.mem_cons_of_mem ch hmem)]
      · rw [if_neg hmem, if_neg (by simp [hne, hmem])]

/-- The replacement pass of `_sanitize_filename`, as a single map. -/
theorem sanitize_replaced_eq (name : Str) :
    invalidChars.foldl
      (fun acc ch => acc.map (fun c => if c == ch then '_' else c)) name
      = name.map (fun c => if c ∈ invalidChars then '_' else c) := by
  rw [foldl_map_sub]
  exact List.map_congr_left
    (fun c _ => chainSub_eq invalidChars (by decide) c)

theorem stripBoth_eq_nil_iff (p : Char → Bool) (X : Str) :
    ((X.dropWhile p).reverse.dropWhile p).reverse = [] ↔ ∀ c ∈ X, p c := by
  constructor
  · intro h c hc
    by_contra hpc
    have h1 : X.dropWhile p ≠ [] := by
      intro hnil
      exact hpc (List.dropWhile_eq_nil_iff.mp hnil c hc)
    cases hY : X.dropWhile p with
    | nil => exact h1 hY
    | cons y0 ys =>
      have hy0 : p y0 = false :=
        dropWhile_head_not p X y0 (by rw [hY]; rfl)
      have hy0mem : y0 ∈ (X.dropWhile p).reverse := by
        rw [hY]; simp
      have hz : (X.dropWhile p).reverse.dropWhile p = [] := by
        have := congrArg List.reverse h
        simpa using this
      have := List.dropWhile_eq_nil_iff.mp hz y0 hy0mem
      rw [hy0] at this
      exact Bool.false_ne_true this
  · intro hall
    rw [List.dropWhile_eq_nil_iff.mpr hall]
    rfl

theorem invalid_not_dotSpace : ∀ c ∈ invalidChars, isDotSpace c = false := by
  decide

/-- C8 (corrected): `_sanitize_filename` replaces each of the nine unsafe
characters with `"_"` and trims leading/trailing dots and spaces; the
fixed placeholder `"unnamed"` is returned exactly when the trimmed result
is empty, i.e. when the input consists entirely of dots and spaces — an
input consisting entirely of unsafe characters yields underscores, not
the placeholder, contrary to the claim.  In every case the result is
non-empty, contains no unsafe character, and neither starts nor ends with
a dot or space. -/
theorem sanitize_filename_spec (name : Str) :
    sanitize_filename name ≠ [] ∧
    (∀ c ∈ sanitize_filename name, c ∉ invalidChars) ∧
    (∀ c, (sanitize_filename name).head? = some c → isDotSpace c = false) ∧
    (∀ c, (sanitize_filename name).getLast? = some c →
      isDotSpace c = false) ∧
    ((∀ c ∈ name, isDotSpace c = true) →
      sanitize_filename name = str "unnamed") ∧
    (¬ (∀ c ∈ name, isDotSpace c = true) →
      sanitize_filename name = stripDotSpace
        (name.map (fun c => if c ∈ invalidChars then '_' else c))) := by
  have hrepl := sanitize_replaced_eq name
  have hiff : stripDotSpace
      (name.map (fun c => if c ∈ invalidChars then '_' else c)) = [] ↔
      ∀ c ∈ name, isDotSpace c = true := by
    unfold stripDotSpace
    rw [stripBoth_eq_nil_iff]
    constructor
    · intro h c hc
      have := h _ (List.mem_map_of_mem _ hc)
      split at this
      · exact absurd this (by decide)
      · exact this
    · intro h c hc
      rcases List.mem_map.mp hc with ⟨x, hx, rfl⟩
      split
      · rename_i hmem
        exact absurd (h x hx)
          (by rw [invalid_not_dotSpace x hmem]; simp)
      · exact h x hx
  unfold sanitize_filename
  dsimp only
  rw [hrepl]
  by_cases hall : ∀ c ∈ name, isDotSpace c = true
  · rw [if_neg (by simpa using hiff.mpr hall)]
    refine ⟨by decide, by decide, by decide, by decide, fun _ => rfl,
      fun hn => absurd hall hn⟩
  · have hne : stripDotSpace
        (name.map (fun c => if c ∈ invalidChars then '_' else c)) ≠ [] := by
      intro h
      exact hall (hiff.mp h)
    rw [if_pos (by simpa using hne)]
    refine ⟨hne, ?_, ?_, ?_, fun h => absurd h hall, fun _ => rfl⟩
    · intro c hc hcinv
      have hmem : c ∈ name.map
          (fun c => if c ∈ invalidChars then '_' else c) :=
        ((stripDotSpace_mid _).sublist).mem hc
      rcases List.mem_map.mp hmem with ⟨x, _, hx⟩
      split at hx
      · rw [← hx] at hcinv; exact absurd hcinv (by decide)
      · rename_i hxnot; rw [← hx] at hcinv; exact hxnot hcinv
    · exact fun c hc => stripBoth_head isDotSpace _ c hc
    · exact fun c hc => stripBoth_getLast isDotSpace _ c hc

/-- Counterexample for C8 as stated: `"???"` consists entirely of invalid
(filesystem-unsafe) characters, yet the sanitizer returns `"___"`, not
the fixed placeholder. -/
theorem sanitize_filename_claim_cex :
    (∀ c ∈ str "???", c ∈ invalidChars) ∧
    sanitize_filename (str "???") = str "___" ∧
    sanitize_filename (str "???") ≠ str "unnamed" := by decide

/-- Witness for C8 at a name with dots, spaces and unsafe characters. -/
theorem sanitize_filename_spec_witness :
    sanitize_filename (str " .shot<1>. ") = stripDotSpace
      ((str " .shot<1>. ").map
        (fun c => if c ∈ invalidChars then '_' else c)) :=
  (sanitize_filename_spec (str " .shot<1>. ")).2.2.2.2.2 (by decide)

/-!
### `_escape_text_for_mu` lemmas (C9)
-/

/-- The per-character effect of the three successive replaces (the later
replaces never touch characters introduced by the earlier ones). -/
def escChar (c : Char) : Str :=
  if c = '\\' then ['\\', '\\']
  else if c = '\"' then ['\\', '\"']
  else if c = '\n' then ['\\', 'n']
  else [c]

theorem escape_eq_flatMap (t : Str) :
    escape_text_for_mu t = t.flatMap escChar := by
  induction t with
  | nil => rfl
  | cons c rest ih =>
    have hsplit : escape_text_for_mu (c :: rest) =
        escape_text_for_mu [c] ++ escape_text_for_mu rest := by
      unfold escape_text_for_mu replaceChar
      simp [List.flatMap_append]
    rw [hsplit, ih, List.flatMap_cons]
    congr 1
    by_cases h1 : c = '\\'
    · subst h1; rfl
    · by_cases h2 : c = '\"'
      · subst h2; rfl
      · by_cases h3 : c = '\n'
        · subst h3; rfl
        · simp [escape_text_for_mu, replaceChar, escChar, h1, h2, h3]

theorem muUnescape_two (a b : Char) (X : Str) (h : a = '\\')
    (hb : b = '\\' ∨ b = '\"' ∨ b = 'n') :
    muUnescape (a :: b :: X) =
      (if b = '\\' then '\\' else if b = '\"' then '\"' else '\n')
        :: muUnescape X := by
  subst h
  rcases hb with rfl | rfl | rfl
  · rw [muUnescape]; simp
  · rw [muUnescape]; simp
  · rw [muUnescape]; simp

theorem muUnescape_nil : muUnescape [] = [] := by
  rw [muUnescape.eq_def]

theorem muUnescape_plain (c : Char) (X : Str) (h : c ≠ '\\') :
    muUnescape (c :: X) = c :: muUnescape X := by
  cases X with
  | nil => rw [muUnescape.eq_def, muUnescape_nil]
  | cons b rest => rw [muUnescape]; simp [h]

theorem mu_roundtrip_aux (t : Str) :
    muUnescape (t.flatMap escChar) = t := by
  induction t with
  | nil => rw [List.flatMap_nil, muUnescape_nil]
  | cons c rest ih =>
    rw [List.flatMap_cons]
    by_cases h1 : c = '\\'
    · subst h1
      show muUnescape ('\\' :: '\\' :: rest.flatMap escChar) = _
      rw [muUnescape_two _ _ _ rfl (Or.inl rfl)]
      simp [ih]
    · by_cases h2 : c = '\"'
      · subst h2
        show muUnescape ('\\' :: '\"' :: rest.flatMap escChar) = _
        rw [muUnescape_two _ _ _ rfl (Or.inr (Or.inl rfl))]
        simp [ih]
      · by_cases h3 : c = '\n'
        · subst h3
          show muUnescape ('\\' :: 'n' :: rest.flatMap escChar) = _
          rw [muUnescape_two _ _ _ rfl (Or.inr (Or.inr rfl))]
          simp [ih]
        · have : escChar c = [c] := by simp [escChar, h1, h2, h3]
          rw [this]
          show muUnescape (c :: rest.flatMap escChar) = _
          rw [muUnescape_plain c _ h1, ih]

theorem escape_no_nl_aux (t : Str) : '\n' ∉ t.flatMap escChar := by
  intro h
  rcases List.mem_flatMap.mp h with ⟨c, _, hc⟩
  unfold escChar at hc
  split at hc
  · simp at hc
  · split at hc
    · simp at hc
    · split at hc
      · simp at hc
      · rename_i h3
        simp only [List.mem_singleton] at hc
        exact h3 hc.symm

theorem noUnescapedQuote_bs (x : Char) (X : Str) :
    noUnescapedQuote ('\\' :: x :: X) = noUnescapedQuote X := by
  rw [noUnescapedQuote]
  simp

theorem noUnescapedQuote_esc (c : Char) (X : Str)
    (hX : noUnescapedQuote X = true) :
    noUnescapedQuote (escChar c ++ X) = true := by
  by_cases h1 : c = '\\'
  · subst h1
    show noUnescapedQuote ('\\' :: '\\' :: X) = true
    rw [noUnescapedQuote_bs]; exact hX
  · by_cases h2 : c = '\"'
    · subst h2
      show noUnescapedQuote ('\\' :: '\"' :: X) = true
      rw [noUnescapedQuote_bs]; exact hX
    · by_cases h3 : c = '\n'
      · subst h3
        show noUnescapedQuote ('\\' :: 'n' :: X) = true
        rw [noUnescapedQuote_bs]; exact hX
      · have he : escChar c = [c] := by simp [escChar, h1, h2, h3]
        rw [he]
        show noUnescapedQuote (c :: X) = true
        cases X with
        | nil => rw [noUnescapedQuote.eq_def]; simp [h2]
        | cons b rest =>
          rw [noUnescapedQuote, if_neg h1, if_neg h2]
          exact hX

theorem escape_quote_safe_aux (t : Str) :
    noUnescapedQuote (t.flatMap escChar) = true := by
  induction t with
  | nil => rw [List.flatMap_nil, noUnescapedQuote.eq_def]
  | cons c rest ih =>
    rw [List.flatMap_cons]
    exact noUnescapedQuote_esc c _ ih

/-- C9 (confirmed): escaping a string for a Mu string literal and then
interpreting the Mu escapes recovers the original exactly, and the
escaped output contains no raw newline and no unescaped double quote. -/
theorem escape_text_for_mu_roundtrip (t : Str) :
    muUnescape (escape_text_for_mu t) = t ∧
    '\n' ∉ escape_text_for_mu t ∧
    noUnescapedQuote (escape_text_for_mu t) = true := by
  rw [escape_eq_flatMap]
  exact ⟨mu_roundtrip_aux t, escape_no_nl_aux t, escape_quote_safe_aux t⟩

/-- Witness for C9 at a string containing all three escaped characters. -/
theorem escape_text_for_mu_roundtrip_witness :
    muUnescape (escape_text_for_mu (str "a\"b\\c\nd")) = str "a\"b\\c\nd" ∧
    '\n' ∉ escape_text_for_mu (str "a\"b\\c\nd") ∧
    noUnescapedQuote (escape_text_for_mu (str "a\"b\\c\nd")) = true :=
  escape_text_for_mu_roundtrip (str "a\"b\\c\nd")

/-!
### `_strip_sequence_pattern` lemmas (C10)
-/

theorem rev_suffix_isPre {r name : Str} (h : r <:+ name.reverse) :
    r.reverse <+: name := by
  have h2 := List.reverse_prefix.mpr h
  simpa using h2

theorem eatRun_suffix (p : Char → Bool) (r x : Str)
    (h : eatRun p r = some x) : x <:+ r := by
  unfold eatRun at h
  split at h
  · simp at h
  · injection h with h
    subst h
    exact List.dropWhile_suffix p

theorem eatChar_suffix (c : Char) (r x : Str)
    (h : eatChar c r = some x) : x <:+ r := by
  cases r with
  | nil => simp [eatChar] at h
  | cons a rest =>
    rw [eatChar] at h
    split at h
    · injection h with h
      subst h
      exact List.suffix_cons a rest
    · simp at h

theorem bind_suffix {o : Option Str} {f : Str → Option Str} {base : Str}
    (ho : ∀ y, o = some y → y <:+ base)
    (hf : ∀ r x, f r = some x → x <:+ r) :
    ∀ x, o.bind f = some x → x <:+ base := by
  intro x hx
  rcases Option.bind_eq_some.mp hx with ⟨y, hy, hfy⟩
  exact (hf y x hfy).trans (ho y hy)

theorem matcher_isPre (m : Str → Option Str) (hm : m ∈ seqPatterns)
    (name r : Str) (h : m name = some r) : r <+: name := by
  have base : ∀ y, eatRun (· == '@') name.reverse = some y →
      y <:+ name.reverse := fun y hy => eatRun_suffix _ _ y hy
  simp only [seqPatterns, List.mem_cons, List.not_mem_nil, or_false] at hm
  rcases hm with rfl | rfl | rfl | rfl | rfl | rfl
  · unfold matchRangeAt at h
    rcases Option.map_eq_some'.mp h with ⟨y, hy, rfl⟩
    exact rev_suffix_isPre
      (bind_suffix (bind_suffix (bind_suffix (bind_suffix base
        (fun r x => eatRun_suffix _ r x))
        (fun r x => eatChar_suffix '-' r x))
        (fun r x => eatRun_suffix _ r x))
        (fun r x => eatChar_suffix '.' r x) y hy)
  · unfold matchFrameAt at h
    rcases Option.map_eq_some'.mp h with ⟨y, hy, rfl⟩
    exact rev_suffix_isPre
      (bind_suffix (bind_suffix base (fun r x => eatRun_suffix _ r x))
        (fun r x => eatChar_suffix '.' r x) y hy)
  · unfold matchBareAt at h
    rcases Option.map_eq_some'.mp h with ⟨y, hy, rfl⟩
    exact rev_suffix_isPre
      (bind_suffix base (fun r x => eatChar_suffix '.' r x) y hy)
  · unfold matchPercentD at h
    rcases Option.map_eq_some'.mp h with ⟨y, hy, rfl⟩
    refine rev_suffix_isPre ?_
    refine bind_suffix (bind_suffix ?_ (fun r x => eatChar_suffix '%' r x))
      (fun r x => eatChar_suffix '.' r x) y hy
    intro z hz
    rcases Option.map_eq_some'.mp hz with ⟨w, hw, rfl⟩
    exact (List.dropWhile_suffix _).trans (eatChar_suffix 'd' _ w hw)
  · unfold matchHashes at h
    rcases Option.map_eq_some'.mp h with ⟨y, hy, rfl⟩
    exact rev_suffix_isPre
      (bind_suffix (fun y hy => eatRun_suffix _ _ y hy)
        (fun r x => eatChar_suffix '.' r x) y hy)
  · unfold matchTrailingDigits at h
    rcases Option.map_eq_some'.mp h with ⟨y, hy, rfl⟩
    exact rev_suffix_isPre
      (bind_suffix (fun y hy => eatRun_suffix _ _ y hy)
        (fun r x => eatChar_suffix '.' r x) y hy)

theorem stripSeqFirst_eq (ms : List (Str → Option Str)) (name : Str) :
    stripSeqFirst ms name =
      match firstSeqMatch ms name with
      | none => name
      | some r => r := by
  induction ms with
  | nil => rfl
  | cons m ms ih =>
    rw [stripSeqFirst, firstSeqMatch]
    cases h : m name with
    | none => simpa [h] using ih
    | some r => simp [h]

theorem firstSeqMatch_mem (ms : List (Str → Option Str)) (name r : Str)
    (h : firstSeqMatch ms name = some r) : ∃ m ∈ ms, m name = some r := by
  induction ms with
  | nil => simp [firstSeqMatch] at h
  | cons m ms ih =>
    rw [firstSeqMatch] at h
    cases hm : m name with
    | none =>
      rw [hm] at h
      rcases ih h with ⟨m', hm', hval⟩
      exact ⟨m', List.mem_cons_of_mem m hm', hval⟩
    | some x =>
      rw [hm] at h
      injection h with h
      subst h
      exact ⟨m, List.mem_cons_self m ms, hm⟩

/-- C10 (confirmed): for every non-empty source name,
`_strip_sequence_pattern` applies at most one of the six candidate
trailing patterns — the first in order that matches, which removes a
suffix (the result is a prefix of the input) — and never returns an
empty string: when stripping the matched pattern would leave nothing,
the original name is returned unchanged. -/
theorem strip_sequence_pattern_spec (name : Str) (h : name ≠ []) :
    strip_sequence_pattern name ≠ [] ∧
    strip_sequence_pattern name <+: name ∧
    (firstSeqMatch seqPatterns name = none →
      strip_sequence_pattern name = name) ∧
    (∀ r, firstSeqMatch seqPatterns name = some r →
      strip_sequence_pattern name = if r = [] then name else r) := by
  unfold strip_sequence_pattern
  dsimp only
  rw [stripSeqFirst_eq]
  cases hf : firstSeqMatch seqPatterns name with
  | none =>
    refine ⟨by simp [h], by simp [h], fun _ => by simp [h],
      fun r hr => by simp at hr⟩
  | some r =>
    have hpre : r <+: name := by
      rcases firstSeqMatch_mem seqPatterns name r hf with ⟨m, hm, hval⟩
      exact matcher_isPre m hm name r hval
    by_cases hr : r = []
    · subst hr
      refine ⟨by simp [h], by simp [h], fun hn => by simp at hn,
        fun r' hr' => ?_⟩
      injection hr' with hr'
      subst hr'
      simp [h]
    · refine ⟨by simp [hr], by simpa [hr] using hpre,
        fun hn => by simp at hn, fun r' hr' => ?_⟩
      injection hr' with hr'
      subst hr'
      simp [hr]

/-- Witness for C10 at a frame-range sequence name. -/
theorem strip_sequence_pattern_spec_witness :
    strip_sequence_pattern (str "shot.30-69@@@") ≠ [] ∧
    strip_sequence_pattern (str "shot.30-69@@@") <+: str "shot.30-69@@@" ∧
    (firstSeqMatch seqPatterns (str "shot.30-69@@@") = none →
      strip_sequence_pattern (str "shot.30-69@@@") = str "shot.30-69@@@") ∧
    (∀ r, firstSeqMatch seqPatterns (str "shot.30-69@@@") = some r →
      strip_sequence_pattern (str "shot.30-69@@@") =
        if r = [] then str "shot.30-69@@@" else r) :=
  strip_sequence_pattern_spec (str "shot.30-69@@@") (by decide)

/-!
### `get_notes_for_frame` dedup lemmas (C2)
-/

/-- First-occurrence deduplication relative to an already-seen set
(specification vocabulary mirroring the source's `seen_texts`). -/
def dedupAux (seen : List Str) : List Str → List Str
  | [] => []
  | t :: ts =>
    if t ∈ seen then dedupAux seen ts else t :: dedupAux (t :: seen) ts

/-- Keep the first occurrence of each text, in encounter order. -/
def dedupFirst (l : List Str) : List Str := dedupAux [] l

/-- Whether an element is a non-shadow drawing (no text property,
drawing kind) — the source's `has_drawings` trigger. -/
def isDrawingTrigger (e : PaintElement) : Bool :=
  !isShadow e && e.text.isNone && isDrawingKind e

theorem notesScan_eq (elems : List PaintElement) : ∀ seen,
    notesScan elems seen =
      (dedupAux seen (validTexts elems), elems.any isDrawingTrigger) := by
  induction elems with
  | nil => intro seen; rfl
  | cons e rest ih =>
    intro seen
    by_cases hsh : isShadow e
    · have hv : validTexts (e :: rest) = validTexts rest := by
        simp [validTexts, List.filterMap_cons, hsh]
      have ha : (e :: rest).any isDrawingTrigger =
          rest.any isDrawingTrigger := by
        simp [List.any_cons, isDrawingTrigger, hsh]
      rw [notesScan, if_pos hsh, ih seen, hv, ha]
    · cases htxt : e.text with
      | some t =>
        by_cases hnb : nonBlank t
        · have hv : validTexts (e :: rest) = t :: validTexts rest := by
            simp [validTexts, List.filterMap_cons, hsh, htxt, hnb]
          by_cases hseen : t ∈ seen
          · rw [notesScan, if_neg hsh, htxt]
            dsimp only
            rw [if_pos hnb, if_pos hseen, ih seen, hv, dedupAux,
              if_pos hseen]
            simp [List.any_cons, isDrawingTrigger, htxt]
          · rw [notesScan, if_neg hsh, htxt]
            dsimp only
            rw [if_pos hnb, if_neg hseen, ih (t :: seen), hv, dedupAux,
              if_neg hseen]
            simp [List.any_cons, isDrawingTrigger, htxt]
        · have hv : validTexts (e :: rest) = validTexts rest := by
            simp [validTexts, List.filterMap_cons, hsh, htxt, hnb]
          rw [notesScan, if_neg hsh, htxt]
          dsimp only
          rw [if_neg hnb, ih seen, hv]
          simp [List.any_cons, isDrawingTrigger, htxt, hnb]
      | none =>
        have hv : validTexts (e :: rest) = validTexts rest := by
          simp [validTexts, List.filterMap_cons, hsh, htxt]
        by_cases hdr : isDrawingKind e
        · rw [notesScan, if_neg hsh, htxt]
          dsimp only
          rw [if_pos hdr, ih seen, hv]
          simp [List.any_cons, isDrawingTrigger, hsh, htxt, hdr]
        · rw [notesScan, if_neg hsh, htxt]
          dsimp only
          rw [if_neg hdr, ih seen, hv]
          simp [List.any_cons, isDrawingTrigger, htxt, hdr]

theorem dedupAux_mem (l : List Str) : ∀ seen x,
    x ∈ dedupAux seen l ↔ x ∈ l ∧ x ∉ seen := by
  induction l with
  | nil => intro seen x; simp [dedupAux]
  | cons t ts ih =>
    intro seen x
    rw [dedupAux]
    by_cases hseen : t ∈ seen
    · rw [if_pos hseen, ih seen x]
      constructor
      · exact fun ⟨h1, h2⟩ => ⟨List.mem_cons_of_mem t h1, h2⟩
      · rintro ⟨h1, h2⟩
        rcases List.mem_cons.mp h1 with rfl | h1
        · exact absurd hseen h2
        · exact ⟨h1, h2⟩
    · rw [if_neg hseen]
      constructor
      · intro hx
        rcases List.mem_cons.mp hx with rfl | hx
        · exact ⟨List.mem_cons_self x ts, hseen⟩
        · rcases (ih (t :: seen) x).mp hx with ⟨h1, h2⟩
          exact ⟨List.mem_cons_of_mem t h1, fun hs =>
            h2 (List.mem_cons_of_mem t hs)⟩
      · rintro ⟨h1, h2⟩
        rcases List.mem_cons.mp h1 with rfl | h1
        · exact List.mem_cons_self x _
        · by_cases hxt : x = t
          · subst hxt; exact List.mem_cons_self x _
          · exact List.mem_cons_of_mem t ((ih (t :: seen) x).mpr
              ⟨h1, fun hs => by
                rcases List.mem_cons.mp hs with h | h
                · exact hxt h
                · exact h2 h⟩)

theorem dedupAux_nodup (l : List Str) : ∀ seen,
    (dedupAux seen l).Nodup := by
  induction l with
  | nil => intro seen; simp [dedupAux]
  | cons t ts ih =>
    intro seen
    rw [dedupAux]
    split
    · exact ih seen
    · refine List.nodup_cons.mpr ⟨?_, ih (t :: seen)⟩
      intro hmem
      exact ((dedupAux_mem ts (t :: seen) t).mp hmem).2
        (List.mem_cons_self t seen)

theorem dedupAux_sublist (l : List Str) : ∀ seen,
    List.Sublist (dedupAux seen l) l := by
  induction l with
  | nil => intro seen; simp [dedupAux]
  | cons t ts ih =>
    intro seen
    rw [dedupAux]
    split
    · exact (ih seen).cons t
    · exact (ih (t :: seen)).cons₂ t

/-- C2 (corrected): within one store, `get_notes_for_frame` yields every
distinct non-blank raw text of the frame's non-shadow text elements
exactly once, in encounter order (first occurrences, a sublist of the
raw sequence).  Across the two stores, however, duplicates are **not**
collapsed — the per-store deduplicated lists are concatenated in
`_gather_notes_for_export` — so the claim's cross-store case fails (see
the counterexample). -/
theorem get_notes_for_frame_dedup (store : PaintStore) (f : Int) :
    (get_notes_for_frame store f).1 =
      dedupFirst (validTexts (lookupFrame store f)) ∧
    (get_notes_for_frame store f).1.Nodup ∧
    List.Sublist (get_notes_for_frame store f).1
      (validTexts (lookupFrame store f)) := by
  unfold get_notes_for_frame dedupFirst
  rw [notesScan_eq]
  exact ⟨rfl, dedupAux_nodup _ [], dedupAux_sublist _ []⟩

/-- The session of the C2 counterexample: byte-identical raw text `"- a"`
stored once in the source store at clip-relative frame 5 and once in the
sequence store at global frame 200, which the frame mapper sends to 5. -/
def c2Session : Session :=
  { sourceNode := str "sourceGroup000000_source"
    sourcePath := str "/show/clip.mov"
    sourcePaint := [(5, [⟨str "text:0:5:note", some (str "- a")⟩])]
    seqPaint := some [(200, [⟨str "text:0:200:annotation",
      some (str "- a")⟩])]
    mapToSource := fun _ => 5 }

/-- Counterexample for C2 as stated: the report for `c2Session` contains
TWO `"- a"` lines for clip-relative frame 5, not one. -/
theorem cross_store_dedup_cex :
    (splitOnChar '\n'
      (((gather_notes_for_export c2Session (str "2026_01_01 10:00")
        none none).1).getD [])).count (str "- a") = 2 := by decide

/-!
### `_clean_empty_paint_elements` lemmas (C4)
-/

/-- Valid content in the cleanup scan: non-blank text when a `.text`
property exists, else drawing kind. -/
def validContent (e : PaintElement) : Bool :=
  match e.text with
  | some t => nonBlank t
  | none => isDrawingKind e

/-- An element that lands in `empty_text_elements`: a `.text` property
exists but is blank. -/
def isBlankTextElem (e : PaintElement) : Bool :=
  match e.text with
  | some t => !nonBlank t
  | none => false

theorem cleanScan_eq (elems : List PaintElement) :
    cleanScan elems =
      (elems.any (fun e => !isShadow e && validContent e),
        elems.filter (fun e => !isShadow e && isBlankTextElem e)) := by
  induction elems with
  | nil => rfl
  | cons e rest ih =>
    by_cases hsh : isShadow e
    · rw [cleanScan, if_pos hsh, ih]
      simp [List.any_cons, List.filter_cons, hsh]
    · cases htxt : e.text with
      | some t =>
        by_cases hnb : nonBlank t
        · rw [cleanScan, if_neg hsh, htxt]
          dsimp only
          rw [if_pos hnb, ih]
          simp [List.any_cons, List.filter_cons, hsh, validContent,
            isBlankTextElem, htxt, hnb]
        · rw [cleanScan, if_neg hsh, htxt]
          dsimp only
          rw [if_neg hnb, ih]
          simp [List.any_cons, List.filter_cons, hsh, validContent,
            isBlankTextElem, htxt, hnb]
      | none =>
        by_cases hdr : isDrawingKind e
        · rw [cleanScan, if_neg hsh, htxt]
          dsimp only
          rw [if_pos hdr, ih]
          simp [List.any_cons, List.filter_cons, hsh, validContent,
            isBlankTextElem, htxt, hdr]
        · rw [cleanScan, if_neg hsh, htxt]
          dsimp only
          rw [if_neg hdr, ih]
          simp [List.any_cons, List.filter_cons, hsh, validContent,
            isBlankTextElem, htxt, hdr]

/-- C4 (corrected): `_clean_empty_paint_elements` deletes the frame's
elements iff, among the frame's **non-shadow** elements, none is valid
content — non-blank text when a `.text` property exists, or drawing kind
when none exists — and at least one carries a blank text property; in
every other case it is a no-op leaving the store unchanged.  The claim's
condition ("none of the frame's elements carry non-blank text and none
are drawing-kind") is neither necessary nor sufficient: see the
counterexample. -/
theorem clean_empty_paint_elements_spec (elems : List PaintElement) :
    (clean_empty_paint_elements elems = true ↔
      (∀ e ∈ elems, isShadow e = false → validContent e = false) ∧
      ∃ e ∈ elems, isShadow e = false ∧ isBlankTextElem e = true) ∧
    (clean_empty_paint_elements elems = false →
      cleanFrameApply elems = elems) ∧
    (clean_empty_paint_elements elems = true →
      cleanFrameApply elems = []) := by
  refine ⟨?_, fun h => by rw [cleanFrameApply, h]; rfl,
    fun h => by rw [cleanFrameApply, h]; rfl⟩
  unfold clean_empty_paint_elements
  rw [cleanScan_eq]
  by_cases hnil : elems = []
  · subst hnil
    simp
  · rw [if_neg hnil]
    dsimp only
    constructor
    · intro h
      split at h
      · simp at h
      · rename_i hcond
        simp only [Bool.or_eq_true, decide_eq_true_eq, not_or,
          Bool.not_eq_true] at hcond
        rcases hcond with ⟨hany, hfilter⟩
        constructor
        · intro e he hshadow
          by_contra hvc
          have : elems.any (fun e => !isShadow e && validContent e) = true :=
            List.any_eq_true.mpr ⟨e, he, by
              simp [hshadow, eq_true_of_ne_false hvc]⟩
          rw [this] at hany
          simp at hany
        · rcases List.exists_mem_of_ne_nil _ hfilter with ⟨e, he⟩
          have := List.mem_filter.mp he
          have hsplit := this.2
          simp only [Bool.and_eq_true, Bool.not_eq_true'] at hsplit
          exact ⟨e, this.1, hsplit.1, hsplit.2⟩
    · rintro ⟨hall, e, he, hsh, hbl⟩
      have hany : elems.any (fun e => !isShadow e && validContent e)
          = false := by
        rw [List.any_eq_false]
        intro x hx
        by_cases hxs : isShadow x
        · simp [hxs]
        · simp [hxs, hall x hx (by simpa using hxs)]
      have hflt : List.filter (fun e => !isShadow e && isBlankTextElem e)
          elems ≠ [] := by
        intro hflt
        have hmem : e ∈ elems.filter
            (fun e => !isShadow e && isBlankTextElem e) :=
          List.mem_filter.mpr ⟨he, by simp [hsh, hbl]⟩
        rw [hflt] at hmem
        simp at hmem
      rw [if_neg (by simp [hany, hflt])]

/-- Counterexample for C4 as stated: the frame whose only element is
`"tag:7:5:x"` (no text property, not drawing-kind) satisfies the claim's
deletion condition, yet the cleanup is a no-op; the frame whose only
element is the drawing-kind `"pen:1:5:x"` with a blank text property must
be a no-op per the claim, yet the cleanup deletes it. -/
theorem clean_empty_claim_cex :
    clean_empty_paint_elements [⟨str "tag:7:5:x", none⟩] = false ∧
    cleanFrameApply [⟨str "tag:7:5:x", none⟩] =
      [⟨str "tag:7:5:x", none⟩] ∧
    (∀ e ∈ [(⟨str "tag:7:5:x", none⟩ : PaintElement)],
      hasNonBlankText e = false ∧ isDrawingKind e = false) ∧
    clean_empty_paint_elements [⟨str "pen:1:5:x", some (str "")⟩] = true ∧
    (∀ e ∈ [(⟨str "pen:1:5:x", some (str "")⟩ : PaintElement)],
      isDrawingKind e = true) := by decide

/-- Witness for C4: a frame holding one whitespace-only note is cleared. -/
theorem clean_empty_paint_elements_spec_witness :
    cleanFrameApply [⟨str "text:0:5:note", some (str " ")⟩] = [] :=
  (clean_empty_paint_elements_spec
    [⟨str "text:0:5:note", some (str " ")⟩]).2.2 (by decide)

/-!
### View restoration (C7)
-/

/-- C7 (corrected): whenever reading the current view succeeds and the
restoring `setViewNode` call succeeds (and the stored view name is
non-empty, since `if original_view:` treats `""` as absent), both
`save_review`'s annotation check and `_export_annotated_frames` restore
the previously active view on every exit path — normal completion, early
return, or error.  If reading the original view fails while the narrowing
succeeds, `_export_annotated_frames` terminates with the view still
narrowed to the source group, contradicting the claim (see the
counterexample); `save_review`'s check is immune because its `viewNode`
read happens inside the same `try` before the narrowing. -/
theorem view_restored (o : HostOracle) (sg : Str) (st : ViewState)
    (h1 : o.viewNodeOk = true) (h3 : o.restoreOk = true)
    (h4 : st.view ≠ []) :
    save_review_check_view o sg st = st ∧
    export_annotated_frames_view o sg st = st := by
  obtain ⟨v⟩ := st
  have hne : v.isEmpty = false := by
    cases v with
    | nil => exact absurd rfl h4
    | cons a l => rfl
  constructor
  · unfold save_review_check_view
    rw [h1]
    simp [h3, hne]
  · unfold export_annotated_frames_view
    rw [h1]
    simp [h3, hne]

/-- Counterexample for C7 as stated: in `_export_annotated_frames`, when
`commands.viewNode()` raises (so `original_view = None`) but
`setViewNode(source_group)` succeeds, the `finally` block skips the
restore and the workflow terminates with the view still narrowed to the
source group. -/
theorem view_leak_cex :
    export_annotated_frames_view ⟨false, true, true⟩
      (str "sourceGroup000000") ⟨str "defaultSequence"⟩ =
      ⟨str "sourceGroup000000"⟩ ∧
    (ViewState.mk (str "sourceGroup000000")) ≠
      ViewState.mk (str "defaultSequence") := by
  decide

/-- Witness for C7 with an all-succeeding host. -/
theorem view_restored_witness :
    save_review_check_view ⟨true, true, true⟩ (str "sourceGroup000000")
      ⟨str "defaultSequence"⟩ = ⟨str "defaultSequence"⟩ ∧
    export_annotated_frames_view ⟨true, true, true⟩
      (str "sourceGroup000000") ⟨str "defaultSequence"⟩ =
      ⟨str "defaultSequence"⟩ :=
  view_restored ⟨true, true, true⟩ (str "sourceGroup000000")
    ⟨str "defaultSequence"⟩ rfl rfl (by decide)

/-!
### Report idempotence (C1)
-/

/-- The session of the C1 theorems: one note on clip-relative frame 10. -/
def c1Session : Session :=
  { sourceNode := str "sourceGroup000000_source"
    sourcePath := str "/show/clip.mov"
    sourcePaint := [(10, [⟨str "text:1:10:note", some (str "- hello")⟩])]
    seqPaint := none
    mapToSource := fun g => g }

/-- C1 (corrected): the export pipeline is a pure function of the
annotation stores, the source and the generation timestamp it reads from
the clock: with equal timestamps two successive runs with no intervening
store mutation return byte-identical strings, and for any two timestamps
the produced line lists differ at most in the timestamp line (index 1).
As stated the claim fails, because each run re-reads the clock and prints
it in the header (see the counterexample). -/
theorem report_idempotent_up_to_timestamp (s : Session)
    (ff sp : Option Str) (t1 t2 : Str) :
    (t1 = t2 → gather_notes_for_export s t1 ff sp =
      gather_notes_for_export s t2 ff sp) ∧
    (∀ nm pth fn dr,
      (formatLines nm pth t1 fn dr ff sp).eraseIdx 1 =
        (formatLines nm pth t2 fn dr ff sp).eraseIdx 1 ∧
      (formatLines nm pth t1 fn dr ff sp).get? 1 = some t1) :=
  ⟨fun h => by rw [h], fun nm pth fn dr => ⟨rfl, rfl⟩⟩

/-- Counterexample for C1 as stated: two successive runs on the same
fixed store state whose clock reads differ by one minute produce
different report strings. -/
theorem report_not_idempotent_cex :
    gather_notes_for_export c1Session (str "2026_01_01 10:00") none none ≠
      gather_notes_for_export c1Session (str "2026_01_01 10:01")
        none none := by
  decide

/-- Witness for C1 at the one-note session with equal timestamps. -/
theorem report_idempotent_witness :
    gather_notes_for_export c1Session (str "2026_01_01 10:00") none none =
      gather_notes_for_export c1Session (str "2026_01_01 10:00")
        none none :=
  (report_idempotent_up_to_timestamp c1Session none none
    (str "2026_01_01 10:00") (str "2026_01_01 10:00")).1 rfl

end SnapReview
